import Mathlib

/-!
Shallow embedding of a top-down operator-precedence (Pratt) parsing engine
(`tdop.py`): tokenizer, token stream, rule table and the central `parse`
algorithm, together with theorems checking the claims of the specification.

Conventions of the embedding:
  * Python `int` binding powers become `Int`; token values (`Union[str, int]`)
    become the sum type `TokVal`.
  * The tokenizer models `TOKEN_RE.findall`: a scan that, at each position,
    skips whitespace, tries the four alternation branches (digits, word
    characters, operator-symbol run, single bracket) and, when none matches,
    advances one character.  Recursion is by fuel; `tokenize` supplies fuel
    equal to the input length, which a lemma shows is always enough.
  * The generator-based `TokenStream` becomes a record `current`/`rest`/`done`;
    `TokenStream.next` returns `none` where Python raises `StopIteration`.
  * Handlers (`Nud`, `Led`) are functions to `Except Err`; `ParseError` and
    `StopIteration` are the two constructors of `Err`.
  * The two dicts of `RuleMap` become insertion-ordered association lists with
    Python dict update semantics (`dictInsert` overwrites in place).
  * the unbounded `while True` loop of `parse` becomes the fuel-indexed `parseLoop`;
    the value `none` marks fuel exhaustion (possible divergence), `some` an
    actual outcome of the Python code.
-/

/-- Value carried by a token: either a string or (for number tokens) an
integer. -/
inductive TokVal where
  | str (s : String)
  | num (n : Nat)
deriving DecidableEq

/-- Rendering of a token value by the Python `%s` formatting. -/
def TokVal.toStr : TokVal → String
  | .str s => s
  | .num n => Nat.repr n

/-- A token: type tag, value and optional source location. -/
structure Token where
  type : String
  val : TokVal
  loc : Option (Nat × Nat) := none
deriving DecidableEq

/-- Python `Token.__repr__`: the string `<Token type val>`. -/
def Token.reprStr (t : Token) : String :=
  "<Token " ++ t.type ++ " " ++ t.val.toStr ++ ">"

/-- The end-of-stream sentinel token. -/
def EOF_TOKEN : Token := { type := "eof", val := .str "eof" }

/-- Characters treated as whitespace by the regex class `\s` (ASCII). -/
def isSpaceC (c : Char) : Bool :=
  c = ' ' || c = '\t' || c = '\n' || c = '\x0d' || c = '\x0b' || c = '\x0c'

/-- Characters matched by the regex class `\d`. -/
def isDigitC (c : Char) : Bool :=
  '0' ≤ c && c ≤ '9'

/-- Characters matched by the regex class `\w` (ASCII: letters, digits,
underscore). -/
def isWordC (c : Char) : Bool :=
  ('a' ≤ c && c ≤ 'z') || ('A' ≤ c && c ≤ 'Z') || isDigitC c || c = '_'

/-- The operator-symbol character class of `TOKEN_RE`. -/
def isOpC (c : Char) : Bool :=
  c = '-' || c = '+' || c = '*' || c = '/' || c = '%' || c = '!' || c = '~' ||
  c = '<' || c = '>' || c = '=' || c = '&' || c = '^' || c = '|' || c = '?' ||
  c = ':' || c = ','

/-- The four bracket characters, each always its own token. -/
def isBracketC (c : Char) : Bool :=
  c = '(' || c = ')' || c = '[' || c = ']'

/-- Maximal munch: split a list into the longest leading run satisfying `p`
and the remainder. -/
def munch (p : Char → Bool) : List Char → List Char × List Char
  | [] => ([], [])
  | c :: cs =>
    if p c then
      let m := munch p cs
      (c :: m.1, m.2)
    else ([], c :: cs)

/-- Decimal value of a digit string, as computed by the Python `int`. -/
def digitsVal (l : List Char) : Nat :=
  l.foldl (fun a c => 10 * a + (c.toNat - 48)) 0

/-- One scanner pass of `TOKEN_RE.findall`, fuelled.  At each position it
skips one whitespace character, or emits the token of the first matching
alternation branch, or (no branch matching) skips the character and
continues — `re.findall` advances by one character past a failed match
position. -/
def tokenizeAux : Nat → List Char → List Token
  | 0, _ => []
  | _, [] => []
  | fuel + 1, c :: cs =>
    if isSpaceC c then tokenizeAux fuel cs
    else if isDigitC c then
      let m := munch isDigitC cs
      { type := "number", val := .num (digitsVal (c :: m.1)), loc := some (0, 0) } ::
        tokenizeAux fuel m.2
    else if isWordC c then
      let m := munch isWordC cs
      { type := "name", val := .str (String.mk (c :: m.1)), loc := some (0, 0) } ::
        tokenizeAux fuel m.2
    else if isOpC c then
      let m := munch isOpC cs
      { type := String.mk (c :: m.1), val := .str (String.mk (c :: m.1)), loc := some (0, 0) } ::
        tokenizeAux fuel m.2
    else if isBracketC c then
      { type := String.mk [c], val := .str (String.mk [c]), loc := some (0, 0) } ::
        tokenizeAux fuel cs
    else tokenizeAux fuel cs

/-- Token list produced for a character list; the fuel `l.length` is always
sufficient because every scanner step consumes at least one character. -/
def tokList (l : List Char) : List Token :=
  tokenizeAux l.length l

/-- The token list produced for a source string (`TOKEN_RE.findall` plus the
classification loop of `_make_stream`, without the trailing eof sentinel). -/
def tokenize (s : String) : List Token :=
  tokList s.toList

/-- An AST node: a token and its ordered children. -/
structure Node where
  token : Token
  children : List Node

/-- The two ways embedded code fails: `ParseError msg` and the raw
`StopIteration` of an exhausted generator. -/
inductive Err where
  | parseError (msg : String)
  | stopIteration
deriving DecidableEq

/-- State of the generator-backed token stream: the lookahead token
`current`, the tokens not yet made current, and whether the generator is
exhausted (its final yield, which sets `current` to the eof sentinel, has
been consumed). -/
structure TokenStream where
  current : Token
  rest : List Token
  done : Bool
deriving DecidableEq

/-- Stream state holding the given produced tokens, as left by
`__post_init__` (which consumes the first yield of the generator). -/
def TokenStream.fromTokens : List Token → TokenStream
  | [] => { current := EOF_TOKEN, rest := [], done := true }
  | t :: ts => { current := t, rest := ts, done := false }

/-- Construct the stream for a source string (`TokenStream(s)`). -/
def TokenStream.mkStream (s : String) : TokenStream :=
  TokenStream.fromTokens (tokenize s)

/-- Python `next(token_stream)`: return the token being left behind and the
successor state; `none` models the `StopIteration` raised once the
generator is exhausted. -/
def TokenStream.next : TokenStream → Option (Token × TokenStream)
  | { current := cur, rest := t :: ts, done := _ } =>
    some (cur, { current := t, rest := ts, done := false })
  | { current := cur, rest := [], done := false } =>
    some (cur, { current := EOF_TOKEN, rest := [], done := true })
  | { current := _, rest := [], done := true } => none

/-- Iterate `TokenStream.next` `k` times, failing if any step raises. -/
def TokenStream.nextN (ts : TokenStream) : Nat → Option TokenStream
  | 0 => some ts
  | k + 1 =>
    match ts.next with
    | none => none
    | some (_, ts2) => TokenStream.nextN ts2 k

/-- Number of tokens the stream can still deliver (pending yields of the
generator). -/
def TokenStream.size (ts : TokenStream) : Nat :=
  ts.rest.length + (if ts.done then 0 else 1)

/-- Type of null-denotation (prefix-position) handlers. -/
abbrev Nud : Type :=
  TokenStream → Int → Except Err (Node × TokenStream)

/-- Type of left-denotation (infix-position) handlers. -/
abbrev Led : Type :=
  TokenStream → Int → Node → Except Err (Node × TokenStream)

/-- The automatic failing null handler installed by `register_left`. -/
def raise_null_error : Nud := fun token_stream _ =>
  .error (.parseError (token_stream.current.reprStr ++ " can\x27t be used in prefix position"))

/-- The automatic failing left handler installed by `register_null`. -/
def raise_left_error : Led := fun token_stream _ _ =>
  .error (.parseError (token_stream.current.reprStr ++ " can\x27t be used in infix position"))

/-- Lookup in an insertion-ordered association list (Python dict read). -/
def dictLookup (k : String) : List (String × α) → Option α
  | [] => none
  | (k2, v) :: rest => if k2 = k then some v else dictLookup k rest

/-- Python `k in d`. -/
def dictContains (k : String) (d : List (String × α)) : Bool :=
  (dictLookup k d).isSome

/-- Python `d[k] = v`: overwrite in place if present, else append. -/
def dictInsert (k : String) (v : α) : List (String × α) → List (String × α)
  | [] => [(k, v)]
  | (k2, v2) :: rest =>
    if k2 = k then (k2, v) :: rest else (k2, v2) :: dictInsert k v rest

/-- The rule table: token type to null handler and binding power, and token
type to left handler with left and right binding powers. -/
structure RuleMap where
  null : List (String × (Nud × Int))
  left : List (String × (Led × Int × Int))

/-- The empty rule table (`RuleMap()`). -/
def RuleMap.empty : RuleMap := { null := [], left := [] }

/-- Python `RuleMap.register_null`: install `f` with binding power `bp` for
each listed type, and give each listed type absent from `left` the failing
placeholder left entry `(raise_left_error, 0, 0)`. -/
def RuleMap.register_null (rm : RuleMap) (bp : Int) (token_types : List String)
    (f : Nud) : RuleMap :=
  token_types.foldl
    (fun acc token_type =>
      let acc2 := { acc with null := dictInsert token_type (f, bp) acc.null }
      if dictContains token_type acc2.left then acc2
      else { acc2 with left := dictInsert token_type (raise_left_error, 0, 0) acc2.left })
    rm

/-- Python `RuleMap.register_left`: install `f` with left binding power `bp`
and right binding power `bp - 1` (right-associative) or `bp`
(left-associative) for each listed type, and give each listed type absent
from `null` the failing placeholder `(raise_null_error, 0)`. -/
def RuleMap.register_left (rm : RuleMap) (bp : Int) (token_types : List String)
    (is_left_right_assoc : Bool) (f : Led) : RuleMap :=
  let lbp := bp
  let rbp := if is_left_right_assoc then bp - 1 else bp
  token_types.foldl
    (fun acc token_type =>
      let acc2 := { acc with left := dictInsert token_type (f, lbp, rbp) acc.left }
      if dictContains token_type acc2.null then acc2
      else { acc2 with null := dictInsert token_type (raise_null_error, 0) acc2.null })
    rm

/-- The `while True` loop of `parse`, fuelled; `none` is fuel exhaustion.
Each iteration looks up the left entry of the current token (raising an
unexpected-token `ParseError` when absent), stops returning the running
node once `rbp >= lbp`, and otherwise runs the left handler and loops on
its result. -/
def parseLoop (rm : RuleMap) (rbp : Int) :
    Node → TokenStream → Nat → Option (Except Err (Node × TokenStream))
  | _, _, 0 => none
  | node, token_stream, fuel + 1 =>
    match dictLookup token_stream.current.type rm.left with
    | none =>
      some (.error (.parseError ("Unexpected token " ++ token_stream.current.reprStr)))
    | some (led, lbp, rbp2) =>
      if rbp ≥ lbp then some (.ok (node, token_stream))
      else
        match led token_stream rbp2 node with
        | .error e => some (.error e)
        | .ok (node2, ts2) => parseLoop rm rbp node2 ts2 fuel

/-- Python `parse(rule_map, token_stream, rbp)`: raise at eof, raise when the
current type has no null entry, otherwise run the null handler and enter
the loop with its result as the running left operand. -/
def parse (rm : RuleMap) (token_stream : TokenStream) (rbp : Int) (fuel : Nat) :
    Option (Except Err (Node × TokenStream)) :=
  if token_stream.current.type = EOF_TOKEN.type then
    some (.error (.parseError "Unexpected end of input"))
  else
    match dictLookup token_stream.current.type rm.null with
    | none =>
      some (.error (.parseError ("Unexpected token " ++ token_stream.current.reprStr)))
    | some (nud, bp) =>
      match nud token_stream bp with
      | .error e => some (.error e)
      | .ok (node, ts2) => parseLoop rm rbp node ts2 fuel

/-- Invariant of every token-stream state reachable from construction: the
generator is exhausted exactly when `current` is the eof sentinel, and the
pending tokens are real (non-sentinel) tokens. -/
def GoodStream (ts : TokenStream) : Prop :=
  (ts.done = true ↔ ts.current = EOF_TOKEN) ∧
  (∀ t ∈ ts.rest, t ≠ EOF_TOKEN) ∧
  (ts.done = true → ts.rest = [])

/-- Boolean test that one character list starts with another. -/
def listPre : List Char → List Char → Bool
  | [], _ => true
  | _ :: _, [] => false
  | a :: as, b :: bs => a = b && listPre as bs

/-- Boolean test that `pat` occurs somewhere inside the second list. -/
def listInf (pat : List Char) : List Char → Bool
  | [] => pat.isEmpty
  | b :: bs => listPre pat (b :: bs) || listInf pat bs

/-- Boolean substring test on the underlying character lists (the Python
`substring in message` check used by the tests). -/
def strContains (s pat : String) : Bool :=
  listInf pat.toList s.toList

/-- A sample null handler in the style of a constant rule of a client
grammar: consume the current token and return it as a leaf node. -/
def nudConst : Nud := fun token_stream _ =>
  match token_stream.next with
  | some (t, ts2) => .ok ({ token := t, children := [] }, ts2)
  | none => .error .stopIteration

/-- A sample left handler: consume the current token and wrap the left
operand under it. -/
def ledWrap : Led := fun token_stream _ node =>
  match token_stream.next with
  | some (t, ts2) => .ok ({ token := t, children := [node] }, ts2)
  | none => .error .stopIteration

/-- A sample leaf node used as a running left operand in counterexamples. -/
def sampleNode : Node :=
  { token := { type := "number", val := .num 1, loc := some (0, 0) }, children := [] }

/-- Grammar registering `*`, `/` and `%` only in left (infix) position. -/
def rmPercent : RuleMap :=
  RuleMap.empty.register_left 25 ["*", "/", "%"] false ledWrap

/-- Grammar registering the token type `eof` only in left position. -/
def rmEofLeft : RuleMap :=
  RuleMap.empty.register_left 0 ["eof"] false ledWrap

/-- Grammar registering only `number` in null position; nothing gives `eof`
a left entry. -/
def rmNumber : RuleMap :=
  RuleMap.empty.register_null (-1) ["number"] nudConst

/-- Grammar whose `register_null` call on `eof` leaves the failing left
placeholder (left binding power 0) for `eof`. -/
def rmEofNull : RuleMap :=
  RuleMap.empty.register_null 0 ["eof"] nudConst

/-- Rule tables reachable from the empty table by registration calls. -/
inductive Reach : RuleMap → Prop where
  | empty : Reach RuleMap.empty
  | rnull (rm : RuleMap) (bp : Int) (token_types : List String) (f : Nud) :
      Reach rm → Reach (rm.register_null bp token_types f)
  | rleft (rm : RuleMap) (bp : Int) (token_types : List String)
      (is_left_right_assoc : Bool) (f : Led) :
      Reach rm → Reach (rm.register_left bp token_types is_left_right_assoc f)

/-- Grammar registering `**` as a right-associative left (infix) operator. -/
def rmPow : RuleMap :=
  RuleMap.empty.register_left 27 ["**"] true ledWrap

theorem dictLookup_insert_self (k : String) (v : α) (d : List (String × α)) :
    dictLookup k (dictInsert k v d) = some v := by
  induction d with
  | nil => simp [dictInsert, dictLookup]
  | cons hd tl ih =>
    obtain ⟨k2, v2⟩ := hd
    by_cases h : k2 = k
    · subst h
      simp [dictInsert, dictLookup]
    · simp [dictInsert, dictLookup, h, ih]

theorem dictLookup_insert_ne (k t : String) (v : α) (d : List (String × α))
    (h : k ≠ t) : dictLookup t (dictInsert k v d) = dictLookup t d := by
  induction d with
  | nil => simp [dictInsert, dictLookup, fun hh : k = t => h hh]
  | cons hd tl ih =>
    obtain ⟨k2, v2⟩ := hd
    by_cases h2 : k2 = k
    · subst h2
      simp [dictInsert, dictLookup, fun hh : k2 = t => h hh]
    · simp [dictInsert, dictLookup, h2, ih]

theorem munch_append (p : Char → Bool) (l : List Char) :
    (munch p l).1 ++ (munch p l).2 = l := by
  induction l with
  | nil => simp [munch]
  | cons c cs ih =>
    by_cases h : p c
    · simp [munch, h, ih]
    · simp [munch, h]

theorem munch_all (p : Char → Bool) (l : List Char) :
    ∀ c ∈ (munch p l).1, p c = true := by
  induction l with
  | nil => simp [munch]
  | cons c cs ih =>
    by_cases h : p c
    · simp only [munch, h, if_true]
      intro d hd
      rcases List.mem_cons.mp hd with h2 | h2
      · subst h2; exact h
      · exact ih d h2
    · simp [munch, h]

theorem munch_head (p : Char → Bool) (l : List Char) :
    ∀ c cs2, (munch p l).2 = c :: cs2 → p c = false := by
  induction l with
  | nil => intro c cs2 h; simp [munch] at h
  | cons a as ih =>
    intro c cs2 h
    by_cases ha : p a
    · apply ih c cs2
      simpa [munch, ha] using h
    · have h3 : a = c ∧ as = cs2 := by simpa [munch, ha] using h
      obtain ⟨rfl, -⟩ := h3
      simpa using ha

theorem munch_snd_length (p : Char → Bool) (l : List Char) :
    (munch p l).2.length ≤ l.length := by
  induction l with
  | nil => simp [munch]
  | cons a as ih =>
    by_cases ha : p a
    · simp only [munch, ha, if_true]
      exact Nat.le_succ_of_le ih
    · simp [munch, ha]

theorem tokenizeAux_nil (fuel : Nat) : tokenizeAux fuel [] = [] := by
  cases fuel <;> rfl

theorem tokenizeAux_fuel (n : Nat) : ∀ l : List Char, l.length ≤ n →
    ∀ f1 f2 : Nat, l.length ≤ f1 → l.length ≤ f2 →
    tokenizeAux f1 l = tokenizeAux f2 l := by
  induction n with
  | zero =>
    intro l hl f1 f2 _ _
    have : l = [] := List.length_eq_zero.mp (Nat.le_zero.mp hl)
    subst this
    rw [tokenizeAux_nil, tokenizeAux_nil]
  | succ n ih =>
    intro l hl f1 f2 h1 f2h
    cases l with
    | nil => rw [tokenizeAux_nil, tokenizeAux_nil]
    | cons c cs =>
      cases f1 with
      | zero => simp at h1
      | succ g1 =>
        cases f2 with
        | zero => simp at f2h
        | succ g2 =>
          have hcs : cs.length ≤ n := by simpa using hl
          have hg1 : cs.length ≤ g1 := by simpa using h1
          have hg2 : cs.length ≤ g2 := by simpa using f2h
          have hd : (munch isDigitC cs).2.length ≤ cs.length := munch_snd_length _ _
          have hw : (munch isWordC cs).2.length ≤ cs.length := munch_snd_length _ _
          have ho : (munch isOpC cs).2.length ≤ cs.length := munch_snd_length _ _
          simp only [tokenizeAux]
          split_ifs
          · exact ih cs hcs g1 g2 hg1 hg2
          · rw [ih _ (le_trans hd hcs) g1 g2 (le_trans hd hg1) (le_trans hd hg2)]
          · rw [ih _ (le_trans hw hcs) g1 g2 (le_trans hw hg1) (le_trans hw hg2)]
          · rw [ih _ (le_trans ho hcs) g1 g2 (le_trans ho hg1) (le_trans ho hg2)]
          · rw [ih cs hcs g1 g2 hg1 hg2]
          · exact ih cs hcs g1 g2 hg1 hg2

theorem tokList_eq_aux (fuel : Nat) (l : List Char) (h : l.length ≤ fuel) :
    tokenizeAux fuel l = tokList l :=
  tokenizeAux_fuel l.length l le_rfl fuel l.length h le_rfl

theorem isDigitC_not_space (c : Char) (h : isDigitC c = true) :
    isSpaceC c = false := by
  cases hs : isSpaceC c
  · rfl
  · exfalso
    simp only [isSpaceC, Bool.or_eq_true, decide_eq_true_eq] at hs
    rcases hs with ((((h2 | h2) | h2) | h2) | h2) | h2 <;> subst h2 <;>
      exact absurd h (by decide)

theorem isWordC_not_space (c : Char) (h : isWordC c = true) :
    isSpaceC c = false := by
  cases hs : isSpaceC c
  · rfl
  · exfalso
    simp only [isSpaceC, Bool.or_eq_true, decide_eq_true_eq] at hs
    rcases hs with ((((h2 | h2) | h2) | h2) | h2) | h2 <;> subst h2 <;>
      exact absurd h (by decide)

theorem isOpC_class (c : Char) (h : isOpC c = true) :
    isSpaceC c = false ∧ isDigitC c = false ∧ isWordC c = false := by
  simp only [isOpC, Bool.or_eq_true, decide_eq_true_eq] at h
  rcases h with ((((((((((((((h | h) | h) | h) | h) | h) | h) | h) | h) | h) | h) | h) | h) | h) | h) | h <;>
    subst h <;> exact ⟨by decide, by decide, by decide⟩

theorem isBracketC_class (c : Char) (h : isBracketC c = true) :
    isSpaceC c = false ∧ isDigitC c = false ∧ isWordC c = false ∧
    isOpC c = false := by
  simp only [isBracketC, Bool.or_eq_true, decide_eq_true_eq] at h
  rcases h with ((h | h) | h) | h <;> subst h <;>
    exact ⟨by decide, by decide, by decide, by decide⟩

theorem tokList_space (c : Char) (cs : List Char) (h : isSpaceC c = true) :
    tokList (c :: cs) = tokList cs := by
  show tokenizeAux (cs.length + 1) (c :: cs) = _
  simp [tokenizeAux, h, tokList]

theorem tokList_digit (c : Char) (cs : List Char) (h : isDigitC c = true) :
    tokList (c :: cs) =
      { type := "number", val := .num (digitsVal (c :: (munch isDigitC cs).1)),
        loc := some (0, 0) } :: tokList (munch isDigitC cs).2 := by
  have hs : isSpaceC c = false := isDigitC_not_space c h
  have e : tokenizeAux cs.length (munch isDigitC cs).2 = tokList (munch isDigitC cs).2 :=
    tokList_eq_aux cs.length _ (munch_snd_length _ _)
  show tokenizeAux (cs.length + 1) (c :: cs) = _
  simp [tokenizeAux, hs, h, e]

theorem tokList_op (c : Char) (cs : List Char) (h : isOpC c = true) :
    tokList (c :: cs) =
      { type := String.mk (c :: (munch isOpC cs).1),
        val := .str (String.mk (c :: (munch isOpC cs).1)),
        loc := some (0, 0) } :: tokList (munch isOpC cs).2 := by
  obtain ⟨hs, hd, hw⟩ := isOpC_class c h
  have e : tokenizeAux cs.length (munch isOpC cs).2 = tokList (munch isOpC cs).2 :=
    tokList_eq_aux cs.length _ (munch_snd_length _ _)
  show tokenizeAux (cs.length + 1) (c :: cs) = _
  simp [tokenizeAux, hs, hd, hw, h, e]

theorem tokList_bracket (c : Char) (cs : List Char) (h : isBracketC c = true) :
    tokList (c :: cs) =
      { type := String.mk [c], val := .str (String.mk [c]), loc := some (0, 0) } ::
        tokList cs := by
  obtain ⟨hs, hd, hw, ho⟩ := isBracketC_class c h
  show tokenizeAux (cs.length + 1) (c :: cs) = _
  simp [tokenizeAux, hs, hd, hw, ho, h, tokList]

theorem tokList_skip (c : Char) (cs : List Char) (hs : isSpaceC c = false)
    (hd : isDigitC c = false) (hw : isWordC c = false) (ho : isOpC c = false)
    (hb : isBracketC c = false) : tokList (c :: cs) = tokList cs := by
  show tokenizeAux (cs.length + 1) (c :: cs) = _
  simp [tokenizeAux, hs, hd, hw, ho, hb, tokList]

theorem next_fromTokens (t : Token) (ts : List Token) :
    TokenStream.next (TokenStream.fromTokens (t :: ts)) =
      some (t, TokenStream.fromTokens ts) := by
  cases ts <;> rfl

theorem nextN_fromTokens (k : Nat) : ∀ toks : List Token, k ≤ toks.length →
    TokenStream.nextN (TokenStream.fromTokens toks) k =
      some (TokenStream.fromTokens (toks.drop k)) := by
  induction k with
  | zero => intro toks _; rfl
  | succ k ih =>
    intro toks h
    cases toks with
    | nil => simp at h
    | cons t ts =>
      show TokenStream.nextN (TokenStream.fromTokens (t :: ts)) (k + 1) = _
      rw [TokenStream.nextN, next_fromTokens]
      exact ih ts (by simpa using h)

theorem tokenizeAux_loc (fuel : Nat) : ∀ (l : List Char) (t : Token),
    t ∈ tokenizeAux fuel l → t.loc = some (0, 0) := by
  induction fuel with
  | zero => intro l t h; simp [tokenizeAux] at h
  | succ fuel ih =>
    intro l t h
    cases l with
    | nil => simp [tokenizeAux] at h
    | cons c cs =>
      simp only [tokenizeAux] at h
      split_ifs at h with h1 h2 h3 h4 h5
      · exact ih cs t h
      · rcases List.mem_cons.mp h with h6 | h6
        · subst h6; rfl
        · exact ih _ t h6
      · rcases List.mem_cons.mp h with h6 | h6
        · subst h6; rfl
        · exact ih _ t h6
      · rcases List.mem_cons.mp h with h6 | h6
        · subst h6; rfl
        · exact ih _ t h6
      · rcases List.mem_cons.mp h with h6 | h6
        · subst h6; rfl
        · exact ih _ t h6
      · exact ih cs t h

theorem tokenize_ne_eof (s : String) (t : Token) (h : t ∈ tokenize s) :
    t ≠ EOF_TOKEN := by
  intro he
  have : t.loc = some (0, 0) := tokenizeAux_loc _ _ t h
  rw [he] at this
  simp [EOF_TOKEN] at this

theorem good_fromTokens (toks : List Token) (h : ∀ t ∈ toks, t ≠ EOF_TOKEN) :
    GoodStream (TokenStream.fromTokens toks) := by
  cases toks with
  | nil =>
    refine ⟨by simp [TokenStream.fromTokens], by simp [TokenStream.fromTokens], ?_⟩
    simp [TokenStream.fromTokens]
  | cons t ts =>
    refine ⟨?_, ?_, ?_⟩
    · simp only [TokenStream.fromTokens]
      constructor
      · intro h2; exact absurd h2 (by simp)
      · intro h2; exact absurd h2 (h t (by simp))
    · intro t2 h2
      exact h t2 (List.mem_cons_of_mem t h2)
    · intro h2; exact absurd h2 (by simp [TokenStream.fromTokens])

theorem good_next (ts : TokenStream) (hg : GoodStream ts) (tok : Token)
    (ts2 : TokenStream) (h : ts.next = some (tok, ts2)) : GoodStream ts2 := by
  obtain ⟨cur, rest, done⟩ := ts
  cases rest with
  | nil =>
    cases done with
    | false =>
      have : ts2 = { current := EOF_TOKEN, rest := [], done := true } := by
        have h2 := congrArg (Option.map Prod.snd) h
        simpa [TokenStream.next] using h2.symm
      subst this
      exact ⟨by simp, by simp, by simp⟩
    | true => simp [TokenStream.next] at h
  | cons t2 ts' =>
    have : ts2 = { current := t2, rest := ts', done := false } := by
      have h2 := congrArg (Option.map Prod.snd) h
      simpa [TokenStream.next] using h2.symm
    subst this
    refine ⟨?_, ?_, by simp⟩
    · simp only []
      constructor
      · intro h2; exact absurd h2 (by simp)
      · intro h2
        exact absurd h2 (hg.2.1 t2 (by simp))
    · intro t3 h3
      exact hg.2.1 t3 (List.mem_cons_of_mem t2 h3)

theorem good_nextN (k : Nat) : ∀ ts : TokenStream, GoodStream ts →
    ∀ ts2, TokenStream.nextN ts k = some ts2 → GoodStream ts2 := by
  induction k with
  | zero =>
    intro ts hg ts2 h
    cases h
    exact hg
  | succ k ih =>
    intro ts hg ts2 h
    rw [TokenStream.nextN] at h
    cases hn : ts.next with
    | none => rw [hn] at h; cases h
    | some p =>
      rw [hn] at h
      exact ih p.2 (good_next ts hg p.1 p.2 (by rw [hn])) ts2 h

theorem good_mkStream (s : String) : GoodStream (TokenStream.mkStream s) :=
  good_fromTokens (tokenize s) (fun t h => tokenize_ne_eof s t h)

theorem good_next_none (ts : TokenStream) (hg : GoodStream ts) :
    ts.next = none ↔ ts.current = EOF_TOKEN := by
  obtain ⟨cur, rest, done⟩ := ts
  constructor
  · intro h
    cases rest with
    | nil =>
      cases done with
      | false => simp [TokenStream.next] at h
      | true => exact hg.1.mp rfl
    | cons t2 ts' => simp [TokenStream.next] at h
  · intro h
    have hdone : done = true := hg.1.mpr h
    subst hdone
    have : rest = [] := hg.2.2 rfl
    subst this
    rfl

theorem register_null_cons (rm : RuleMap) (bp : Int) (a : String)
    (rest : List String) (f : Nud) :
    rm.register_null bp (a :: rest) f =
      (if dictContains a rm.left
        then { rm with null := dictInsert a (f, bp) rm.null }
        else { null := dictInsert a (f, bp) rm.null,
               left := dictInsert a (raise_left_error, 0, 0) rm.left } :
        RuleMap).register_null bp rest f := by
  simp only [RuleMap.register_null, List.foldl_cons]

theorem register_left_cons (rm : RuleMap) (bp : Int) (a : String)
    (rest : List String) (flag : Bool) (f : Led) :
    rm.register_left bp (a :: rest) flag f =
      (if dictContains a rm.null
        then { rm with
               left := dictInsert a (f, bp, if flag then bp - 1 else bp) rm.left }
        else { null := dictInsert a (raise_null_error, 0) rm.null,
               left := dictInsert a (f, bp, if flag then bp - 1 else bp) rm.left } :
        RuleMap).register_left bp rest flag f := by
  simp only [RuleMap.register_left, List.foldl_cons]

theorem regNull_null_notmem (bp : Int) (f : Nud) (t : String) :
    ∀ (token_types : List String) (rm : RuleMap), t ∉ token_types →
    dictLookup t (rm.register_null bp token_types f).null = dictLookup t rm.null := by
  intro types
  induction types with
  | nil => intro rm _; rfl
  | cons a rest ih =>
    intro rm hmem
    have ha : a ≠ t := fun h => hmem (by simp [h])
    have hrest : t ∉ rest := fun h => hmem (List.mem_cons_of_mem a h)
    rw [register_null_cons, ih _ hrest]
    split_ifs <;> exact dictLookup_insert_ne a t _ _ ha

theorem regNull_left_notmem (bp : Int) (f : Nud) (t : String) :
    ∀ (token_types : List String) (rm : RuleMap), t ∉ token_types →
    dictLookup t (rm.register_null bp token_types f).left = dictLookup t rm.left := by
  intro types
  induction types with
  | nil => intro rm _; rfl
  | cons a rest ih =>
    intro rm hmem
    have ha : a ≠ t := fun h => hmem (by simp [h])
    have hrest : t ∉ rest := fun h => hmem (List.mem_cons_of_mem a h)
    rw [register_null_cons, ih _ hrest]
    split_ifs
    · rfl
    · exact dictLookup_insert_ne a t _ _ ha

theorem regNull_null_mem (bp : Int) (f : Nud) (t : String) :
    ∀ (token_types : List String) (rm : RuleMap), t ∈ token_types →
    dictLookup t (rm.register_null bp token_types f).null = some (f, bp) := by
  intro types
  induction types with
  | nil => intro rm h; exact absurd h (List.not_mem_nil t)
  | cons a rest ih =>
    intro rm hmem
    by_cases hr : t ∈ rest
    · rw [register_null_cons]
      exact ih _ hr
    · have hat : t = a := by
        rcases List.mem_cons.mp hmem with h | h
        · exact h
        · exact absurd h hr
      subst hat
      rw [register_null_cons, regNull_null_notmem bp f t rest _ hr]
      split_ifs <;> exact dictLookup_insert_self t _ _

theorem regNull_left_pres (bp : Int) (f : Nud) (t : String)
    (v : Led × Int × Int) :
    ∀ (token_types : List String) (rm : RuleMap), dictLookup t rm.left = some v →
    dictLookup t (rm.register_null bp token_types f).left = some v := by
  intro types
  induction types with
  | nil => intro rm hv; exact hv
  | cons a rest ih =>
    intro rm hv
    rw [register_null_cons]
    refine ih _ ?_
    split_ifs with hc
    · exact hv
    · by_cases hat : a = t
      · subst hat
        exact absurd (by simp [dictContains, hv]) hc
      · exact (dictLookup_insert_ne a t _ rm.left hat).trans hv

theorem regNull_left_placeholder (bp : Int) (f : Nud) (t : String) :
    ∀ (token_types : List String) (rm : RuleMap), t ∈ token_types →
    dictLookup t rm.left = none →
    dictLookup t (rm.register_null bp token_types f).left =
      some (raise_left_error, 0, 0) := by
  intro types
  induction types with
  | nil => intro rm h _; exact absurd h (List.not_mem_nil t)
  | cons a rest ih =>
    intro rm hmem hv
    by_cases hat : a = t
    · subst hat
      rw [register_null_cons]
      have hc : ¬ dictContains a rm.left = true := by
        simp [dictContains, hv]
      rw [if_neg hc]
      exact regNull_left_pres bp f a _ rest _ (dictLookup_insert_self a _ _)
    · have hr : t ∈ rest := by
        rcases List.mem_cons.mp hmem with h | h
        · exact absurd h.symm hat
        · exact h
      rw [register_null_cons]
      refine ih _ hr ?_
      split_ifs with hc
      · exact hv
      · exact (dictLookup_insert_ne a t _ rm.left hat).trans hv

theorem regLeft_left_notmem (bp : Int) (flag : Bool) (f : Led) (t : String) :
    ∀ (token_types : List String) (rm : RuleMap), t ∉ token_types →
    dictLookup t (rm.register_left bp token_types flag f).left =
      dictLookup t rm.left := by
  intro types
  induction types with
  | nil => intro rm _; rfl
  | cons a rest ih =>
    intro rm hmem
    have ha : a ≠ t := fun h => hmem (by simp [h])
    have hrest : t ∉ rest := fun h => hmem (List.mem_cons_of_mem a h)
    rw [register_left_cons, ih _ hrest]
    by_cases hc : dictContains a rm.null = true
    · rw [if_pos hc]
      exact dictLookup_insert_ne a t _ _ ha
    · rw [if_neg hc]
      exact dictLookup_insert_ne a t _ _ ha

theorem regLeft_null_notmem (bp : Int) (flag : Bool) (f : Led) (t : String) :
    ∀ (token_types : List String) (rm : RuleMap), t ∉ token_types →
    dictLookup t (rm.register_left bp token_types flag f).null =
      dictLookup t rm.null := by
  intro types
  induction types with
  | nil => intro rm _; rfl
  | cons a rest ih =>
    intro rm hmem
    have ha : a ≠ t := fun h => hmem (by simp [h])
    have hrest : t ∉ rest := fun h => hmem (List.mem_cons_of_mem a h)
    rw [register_left_cons, ih _ hrest]
    by_cases hc : dictContains a rm.null = true
    · rw [if_pos hc]
    · rw [if_neg hc]
      exact dictLookup_insert_ne a t _ _ ha

theorem regLeft_left_mem (bp : Int) (flag : Bool) (f : Led) (t : String) :
    ∀ (token_types : List String) (rm : RuleMap), t ∈ token_types →
    dictLookup t (rm.register_left bp token_types flag f).left =
      some (f, bp, if flag then bp - 1 else bp) := by
  intro types
  induction types with
  | nil => intro rm h; exact absurd h (List.not_mem_nil t)
  | cons a rest ih =>
    intro rm hmem
    by_cases hr : t ∈ rest
    · rw [register_left_cons]
      exact ih _ hr
    · have hat : t = a := by
        rcases List.mem_cons.mp hmem with h | h
        · exact h
        · exact absurd h hr
      subst hat
      rw [register_left_cons, regLeft_left_notmem bp flag f t rest _ hr]
      by_cases hc : dictContains t rm.null = true
      · rw [if_pos hc]
        exact dictLookup_insert_self t _ _
      · rw [if_neg hc]
        exact dictLookup_insert_self t _ _

theorem regLeft_null_pres (bp : Int) (flag : Bool) (f : Led) (t : String)
    (v : Nud × Int) :
    ∀ (token_types : List String) (rm : RuleMap), dictLookup t rm.null = some v →
    dictLookup t (rm.register_left bp token_types flag f).null = some v := by
  intro types
  induction types with
  | nil => intro rm hv; exact hv
  | cons a rest ih =>
    intro rm hv
    rw [register_left_cons]
    refine ih _ ?_
    by_cases hc : dictContains a rm.null = true
    · rw [if_pos hc]
      exact hv
    · rw [if_neg hc]
      by_cases hat : a = t
      · subst hat
        exact absurd (by simp [dictContains, hv]) hc
      · exact (dictLookup_insert_ne a t _ rm.null hat).trans hv

theorem regLeft_null_placeholder (bp : Int) (flag : Bool) (f : Led) (t : String) :
    ∀ (token_types : List String) (rm : RuleMap), t ∈ token_types →
    dictLookup t rm.null = none →
    dictLookup t (rm.register_left bp token_types flag f).null =
      some (raise_null_error, 0) := by
  intro types
  induction types with
  | nil => intro rm h _; exact absurd h (List.not_mem_nil t)
  | cons a rest ih =>
    intro rm hmem hv
    by_cases hat : a = t
    · subst hat
      rw [register_left_cons]
      have hc : ¬ dictContains a rm.null = true := by
        simp [dictContains, hv]
      rw [if_neg hc]
      exact regLeft_null_pres bp flag f a _ rest _ (dictLookup_insert_self a _ _)
    · have hr : t ∈ rest := by
        rcases List.mem_cons.mp hmem with h | h
        · exact absurd h.symm hat
        · exact h
      rw [register_left_cons]
      refine ih _ hr ?_
      by_cases hc : dictContains a rm.null = true
      · rw [if_pos hc]
        exact hv
      · rw [if_neg hc]
        exact (dictLookup_insert_ne a t _ rm.null hat).trans hv

theorem parseLoop_miss (rm : RuleMap) (rbp : Int) (node : Node)
    (ts : TokenStream) (fuel : Nat)
    (hl : dictLookup ts.current.type rm.left = none) :
    parseLoop rm rbp node ts (fuel + 1) =
      some (.error (.parseError ("Unexpected token " ++ ts.current.reprStr))) := by
  rw [parseLoop, hl]

theorem parseLoop_stop (rm : RuleMap) (rbp : Int) (node : Node)
    (ts : TokenStream) (fuel : Nat) (led : Led) (lbp rbp2 : Int)
    (hl : dictLookup ts.current.type rm.left = some (led, lbp, rbp2))
    (hc : rbp ≥ lbp) :
    parseLoop rm rbp node ts (fuel + 1) = some (.ok (node, ts)) := by
  rw [parseLoop, hl]
  simp only [if_pos hc]

theorem parseLoop_go (rm : RuleMap) (rbp : Int) (node : Node)
    (ts : TokenStream) (fuel : Nat) (led : Led) (lbp rbp2 : Int)
    (node2 : Node) (ts2 : TokenStream)
    (hl : dictLookup ts.current.type rm.left = some (led, lbp, rbp2))
    (hc : ¬ rbp ≥ lbp) (hled : led ts rbp2 node = .ok (node2, ts2)) :
    parseLoop rm rbp node ts (fuel + 1) = parseLoop rm rbp node2 ts2 fuel := by
  rw [parseLoop, hl]
  simp only [if_neg hc]
  rw [hled]

theorem parseLoop_go_err (rm : RuleMap) (rbp : Int) (node : Node)
    (ts : TokenStream) (fuel : Nat) (led : Led) (lbp rbp2 : Int) (e : Err)
    (hl : dictLookup ts.current.type rm.left = some (led, lbp, rbp2))
    (hc : ¬ rbp ≥ lbp) (hled : led ts rbp2 node = .error e) :
    parseLoop rm rbp node ts (fuel + 1) = some (.error e) := by
  rw [parseLoop, hl]
  simp only [if_neg hc]
  rw [hled]

theorem parse_at_eof (rm : RuleMap) (ts : TokenStream) (rbp : Int) (fuel : Nat)
    (he : ts.current.type = "eof") :
    parse rm ts rbp fuel = some (.error (.parseError "Unexpected end of input")) := by
  have he2 : ts.current.type = EOF_TOKEN.type := he
  rw [parse, if_pos he2]

theorem parse_null_miss (rm : RuleMap) (ts : TokenStream) (rbp : Int)
    (fuel : Nat) (hne : ¬ ts.current.type = "eof")
    (hn : dictLookup ts.current.type rm.null = none) :
    parse rm ts rbp fuel =
      some (.error (.parseError ("Unexpected token " ++ ts.current.reprStr))) := by
  have hne2 : ¬ ts.current.type = EOF_TOKEN.type := hne
  rw [parse, if_neg hne2, hn]

theorem parse_nud_err (rm : RuleMap) (ts : TokenStream) (rbp : Int)
    (fuel : Nat) (nud : Nud) (bp : Int) (e : Err)
    (hne : ¬ ts.current.type = "eof")
    (hn : dictLookup ts.current.type rm.null = some (nud, bp))
    (hnud : nud ts bp = .error e) :
    parse rm ts rbp fuel = some (.error e) := by
  have hne2 : ¬ ts.current.type = EOF_TOKEN.type := hne
  simp only [parse, if_neg hne2, hn, hnud]

theorem parse_into_loop (rm : RuleMap) (ts : TokenStream) (rbp : Int)
    (fuel : Nat) (nud : Nud) (bp : Int) (node : Node) (ts2 : TokenStream)
    (hne : ¬ ts.current.type = "eof")
    (hn : dictLookup ts.current.type rm.null = some (nud, bp))
    (hnud : nud ts bp = .ok (node, ts2)) :
    parse rm ts rbp fuel = parseLoop rm rbp node ts2 fuel := by
  have hne2 : ¬ ts.current.type = EOF_TOKEN.type := hne
  simp only [parse, if_neg hne2, hn, hnud]

theorem parseLoop_total (rm : RuleMap)
    (H : ∀ t led lbp rbp2, dictLookup t rm.left = some (led, lbp, rbp2) →
      ∀ (ts : TokenStream) (r : Int) (n n2 : Node) (ts2 : TokenStream),
        led ts r n = .ok (n2, ts2) → ts2.size < ts.size) :
    ∀ (fuel : Nat) (node : Node) (ts : TokenStream) (rbp : Int),
      ts.size < fuel → (parseLoop rm rbp node ts fuel).isSome = true := by
  intro fuel
  induction fuel with
  | zero => intro node ts rbp h; exact absurd h (Nat.not_lt_zero _)
  | succ f ih =>
    intro node ts rbp h
    cases hl : dictLookup ts.current.type rm.left with
    | none => rw [parseLoop_miss rm rbp node ts f hl]; rfl
    | some entry =>
      obtain ⟨led, lbp, rbp2⟩ := entry
      by_cases hc : rbp ≥ lbp
      · rw [parseLoop_stop rm rbp node ts f led lbp rbp2 hl hc]; rfl
      · cases hled : led ts rbp2 node with
        | error e => rw [parseLoop_go_err rm rbp node ts f led lbp rbp2 e hl hc hled]; rfl
        | ok res =>
          obtain ⟨n2, ts2⟩ := res
          rw [parseLoop_go rm rbp node ts f led lbp rbp2 n2 ts2 hl hc hled]
          have hlt : ts2.size < ts.size :=
            H _ _ _ _ hl ts rbp2 node n2 ts2 hled
          exact ih n2 ts2 rbp (by omega)

theorem reach_contains (rm : RuleMap) (h : Reach rm) :
    ∀ t, dictContains t rm.null = dictContains t rm.left := by
  induction h with
  | empty => intro t; rfl
  | rnull rm bp types f _ ih =>
    intro t
    by_cases hm : t ∈ types
    · have h1 : dictContains t (rm.register_null bp types f).null = true := by
        simp [dictContains, regNull_null_mem bp f t types rm hm]
      have h2 : dictContains t (rm.register_null bp types f).left = true := by
        cases hv : dictLookup t rm.left with
        | none =>
          simp [dictContains, regNull_left_placeholder bp f t types rm hm hv]
        | some v =>
          simp [dictContains, regNull_left_pres bp f t v types rm hv]
      rw [h1, h2]
    · rw [dictContains, dictContains, regNull_null_notmem bp f t types rm hm,
        regNull_left_notmem bp f t types rm hm]
      exact ih t
  | rleft rm bp types flag f _ ih =>
    intro t
    by_cases hm : t ∈ types
    · have h1 : dictContains t (rm.register_left bp types flag f).left = true := by
        simp [dictContains, regLeft_left_mem bp flag f t types rm hm]
      have h2 : dictContains t (rm.register_left bp types flag f).null = true := by
        cases hv : dictLookup t rm.null with
        | none =>
          simp [dictContains, regLeft_null_placeholder bp flag f t types rm hm hv]
        | some v =>
          simp [dictContains, regLeft_null_pres bp flag f t v types rm hv]
      rw [h1, h2]
    · rw [dictContains, dictContains, regLeft_null_notmem bp flag f t types rm hm,
        regLeft_left_notmem bp flag f t types rm hm]
      exact ih t

theorem listPre_self : ∀ l : List Char, listPre l l = true := by
  intro l
  induction l with
  | nil => rfl
  | cons c cs ih => simp [listPre, ih]

theorem listInf_suffix : ∀ s pat : List Char, listInf pat (s ++ pat) = true := by
  intro s
  induction s with
  | nil =>
    intro pat
    cases pat with
    | nil => rfl
    | cons p ps => simp [listInf, listPre_self]
  | cons c cs ih =>
    intro pat
    simp [listInf, ih pat]

theorem strContains_suffix (s pat : String) : strContains (s ++ pat) pat = true :=
  listInf_suffix s.toList pat.toList

/-- Claim C1: once `parse` has obtained a left operand from the null handler
it enters the loop with that operand; each loop iteration looks up the left
entry of the current token, stops and returns the operand with the stream
untouched (the token is not consumed) when `rbp >= left_bp`, and otherwise
runs the left handler on the stream, the right binding power and the
operand, whose result is the operand of the next iteration. -/
theorem parse_loop_iteration :
    (∀ (rm : RuleMap) (rbp : Int) (ts : TokenStream) (fuel : Nat) (nud : Nud)
      (bp : Int) (node : Node) (ts2 : TokenStream),
      ts.current.type ≠ "eof" →
      dictLookup ts.current.type rm.null = some (nud, bp) →
      nud ts bp = .ok (node, ts2) →
      parse rm ts rbp fuel = parseLoop rm rbp node ts2 fuel) ∧
    (∀ (rm : RuleMap) (rbp : Int) (node : Node) (ts : TokenStream) (fuel : Nat)
      (led : Led) (lbp rbp2 : Int),
      dictLookup ts.current.type rm.left = some (led, lbp, rbp2) →
      (rbp ≥ lbp → parseLoop rm rbp node ts (fuel + 1) = some (.ok (node, ts))) ∧
      (¬ rbp ≥ lbp → ∀ (node2 : Node) (ts2 : TokenStream),
        led ts rbp2 node = .ok (node2, ts2) →
        parseLoop rm rbp node ts (fuel + 1) = parseLoop rm rbp node2 ts2 fuel)) := by
  constructor
  · intro rm rbp ts fuel nud bp node ts2 hne hn hnud
    exact parse_into_loop rm ts rbp fuel nud bp node ts2 hne hn hnud
  · intro rm rbp node ts fuel led lbp rbp2 hl
    refine ⟨fun hc => parseLoop_stop rm rbp node ts fuel led lbp rbp2 hl hc,
      fun hc node2 ts2 hled =>
        parseLoop_go rm rbp node ts fuel led lbp rbp2 node2 ts2 hl hc hled⟩

/-- Witness for C1 at concrete inputs: entering the loop on input `1`, the
stopping rule on the placeholder entry of `number`, and one handler step on
input `% 1`. -/
theorem parse_loop_iteration_witness :
    parse rmNumber (TokenStream.mkStream "1") 0 1 =
      parseLoop rmNumber 0 sampleNode
        { current := EOF_TOKEN, rest := [], done := true } 1 ∧
    parseLoop rmNumber 0 sampleNode (TokenStream.mkStream "1") 1 =
      some (.ok (sampleNode, TokenStream.mkStream "1")) ∧
    parseLoop rmPercent 0 sampleNode (TokenStream.mkStream "% 1") 2 =
      parseLoop rmPercent 0
        { token := { type := "%", val := .str "%", loc := some (0, 0) },
          children := [sampleNode] }
        { current := { type := "number", val := .num 1, loc := some (0, 0) },
          rest := [], done := false } 1 := by
  refine ⟨?_, ?_, ?_⟩
  · exact parse_loop_iteration.1 rmNumber 0 (TokenStream.mkStream "1") 1 nudConst
      (-1) sampleNode { current := EOF_TOKEN, rest := [], done := true }
      (by decide) rfl rfl
  · exact (parse_loop_iteration.2 rmNumber 0 sampleNode
      (TokenStream.mkStream "1") 0 raise_left_error 0 0 rfl).1 (by decide)
  · exact (parse_loop_iteration.2 rmPercent 0 sampleNode
      (TokenStream.mkStream "% 1") 1 ledWrap 25 25 rfl).2 (by decide) _ _ rfl

/-- Claim C2: `register_left bp types flag f` installs, for every listed
type, the left entry with handler `f`, left binding power `bp` and right
binding power `bp` when left-associative (`flag = false`) or `bp - 1` when
right-associative (`flag = true`). -/
theorem register_left_installs (rm : RuleMap) (bp : Int)
    (token_types : List String) (is_left_right_assoc : Bool) (f : Led)
    (t : String) (h : t ∈ token_types) :
    dictLookup t (rm.register_left bp token_types is_left_right_assoc f).left =
      some (f, bp, if is_left_right_assoc then bp - 1 else bp) :=
  regLeft_left_mem bp is_left_right_assoc f t token_types rm h

/-- Witness for C2: the right-associative `**` at 27 gets right binding
power 26, and the left-associative `%` at 25 keeps 25. -/
theorem register_left_installs_witness :
    dictLookup "**" rmPow.left = some (ledWrap, 27, 26) ∧
    dictLookup "%" rmPercent.left = some (ledWrap, 25, 25) := by
  constructor
  · have h := register_left_installs RuleMap.empty 27 ["**"] true ledWrap "**"
      (by decide)
    simpa using h
  · have h := register_left_installs RuleMap.empty 25 ["*", "/", "%"] false
      ledWrap "%" (by decide)
    simpa using h

/-- Claim C3: over every rule map built from the empty one by registration
calls, a token type is a key of the null dict exactly when it is a key of
the left dict; registering a type absent from the opposite dict installs
the failing placeholder there (binding powers 0), the placeholder raises
unconditionally, and a registration never overwrites an existing entry of
the opposite dict. -/
theorem rule_map_totality (rm : RuleMap) (h : Reach rm) :
    (∀ t, dictContains t rm.null = dictContains t rm.left) ∧
    (∀ (bp : Int) (token_types : List String) (f : Nud) (t : String),
      t ∈ token_types → dictLookup t rm.left = none →
      dictLookup t (rm.register_null bp token_types f).left =
        some (raise_left_error, 0, 0)) ∧
    (∀ (bp : Int) (token_types : List String) (flag : Bool) (f : Led)
      (t : String),
      t ∈ token_types → dictLookup t rm.null = none →
      dictLookup t (rm.register_left bp token_types flag f).null =
        some (raise_null_error, 0)) ∧
    (∀ (bp : Int) (token_types : List String) (f : Nud) (t : String)
      (v : Led × Int × Int),
      dictLookup t rm.left = some v →
      dictLookup t (rm.register_null bp token_types f).left = some v) ∧
    (∀ (bp : Int) (token_types : List String) (flag : Bool) (f : Led)
      (t : String) (v : Nud × Int),
      dictLookup t rm.null = some v →
      dictLookup t (rm.register_left bp token_types flag f).null = some v) ∧
    (∀ (ts : TokenStream) (r : Int) (n : Node), ∃ msg,
      raise_left_error ts r n = .error (.parseError msg)) ∧
    (∀ (ts : TokenStream) (r : Int), ∃ msg,
      raise_null_error ts r = .error (.parseError msg)) := by
  refine ⟨reach_contains rm h, ?_, ?_, ?_, ?_, ?_, ?_⟩
  · intro bp token_types f t hm hv
    exact regNull_left_placeholder bp f t token_types rm hm hv
  · intro bp token_types flag f t hm hv
    exact regLeft_null_placeholder bp flag f t token_types rm hm hv
  · intro bp token_types f t v hv
    exact regNull_left_pres bp f t v token_types rm hv
  · intro bp token_types flag f t v hv
    exact regLeft_null_pres bp flag f t v token_types rm hv
  · intro ts r n
    exact ⟨_, rfl⟩
  · intro ts r
    exact ⟨_, rfl⟩

/-- Witness for C3 on the concrete reachable map `rmPercent`: `%` is a key
of both dicts, an unregistered type of neither, and a later `register_null`
call on `%` keeps its real left entry. -/
theorem rule_map_totality_witness :
    dictContains "%" rmPercent.null = dictContains "%" rmPercent.left ∧
    dictContains "name" rmPercent.null = dictContains "name" rmPercent.left ∧
    dictLookup "%" ((rmPercent.register_null (-1) ["%"] nudConst)).left =
      some (ledWrap, 25, 25) := by
  have hreach : Reach rmPercent :=
    Reach.rleft RuleMap.empty 25 ["*", "/", "%"] false ledWrap Reach.empty
  refine ⟨(rule_map_totality rmPercent hreach).1 "%",
    (rule_map_totality rmPercent hreach).1 "name", ?_⟩
  exact (rule_map_totality rmPercent hreach).2.2.2.1 (-1) ["%"] nudConst "%"
    (ledWrap, 25, 25) rfl

/-- Counterexample to C4 as stated: with a grammar that registers only
`number` (so `eof` has no left entry), the input `1` drives the loop to the
eof sentinel, where failing the left-dict membership check raises an
unexpected-token `ParseError` instead of returning the accumulated left
operand. -/
theorem parse_eof_membership_counterexample :
    dictLookup "eof" rmNumber.left = none ∧
    parse rmNumber (TokenStream.mkStream "1") 0 2 =
      some (.error (.parseError "Unexpected token <Token eof eof>")) ∧
    parse rmNumber (TokenStream.mkStream "1") 0 2 ≠
      some (.ok
        ({ token := { type := "number", val := .num 1, loc := some (0, 0) },
           children := [] },
         { current := EOF_TOKEN, rest := [], done := true })) := by
  refine ⟨rfl, rfl, ?_⟩
  intro h
  rw [show parse rmNumber (TokenStream.mkStream "1") 0 2 =
    some (.error (.parseError "Unexpected token <Token eof eof>")) from rfl] at h
  simp at h

/-- Claim C4 amended: with a finite stream and left handlers that each
consume at least one token per successful invocation, `parseLoop` finishes
within fuel `size + 1`; at the eof sentinel the loop raises an
unexpected-token error when `eof` has no left entry, and returns the
accumulated operand under the stopping rule when `eof` carries the failing
placeholder entry of left binding power 0 (the case arranged by grammars)
and the minimum binding power is the outer-most 0. -/
theorem parse_terminates (rm : RuleMap)
    (H : ∀ t led lbp rbp2, dictLookup t rm.left = some (led, lbp, rbp2) →
      ∀ (ts : TokenStream) (r : Int) (n n2 : Node) (ts2 : TokenStream),
        led ts r n = .ok (n2, ts2) → ts2.size < ts.size) :
    (∀ (fuel : Nat) (node : Node) (ts : TokenStream) (rbp : Int),
      ts.size < fuel → (parseLoop rm rbp node ts fuel).isSome = true) ∧
    (∀ (rbp : Int) (node : Node) (ts : TokenStream) (fuel : Nat),
      ts.current.type = "eof" → dictLookup "eof" rm.left = none →
      parseLoop rm rbp node ts (fuel + 1) =
        some (.error (.parseError ("Unexpected token " ++ ts.current.reprStr)))) ∧
    (∀ (node : Node) (ts : TokenStream) (fuel : Nat) (led : Led) (r : Int),
      ts.current.type = "eof" → dictLookup "eof" rm.left = some (led, 0, r) →
      parseLoop rm 0 node ts (fuel + 1) = some (.ok (node, ts))) := by
  refine ⟨parseLoop_total rm H, ?_, ?_⟩
  · intro rbp node ts fuel he hl
    refine parseLoop_miss rm rbp node ts fuel ?_
    rw [he]
    exact hl
  · intro node ts fuel led r he hl
    refine parseLoop_stop rm 0 node ts fuel led 0 r ?_ le_rfl
    rw [he]
    exact hl

/-- Witness for the amended C4: the two eof behaviors on concrete rule maps
and termination of the loop on an empty stream. -/
theorem parse_terminates_witness :
    (parseLoop rmNumber 0 sampleNode (TokenStream.mkStream "") 1).isSome = true ∧
    parseLoop rmNumber 0 sampleNode (TokenStream.mkStream "") 1 =
      some (.error (.parseError "Unexpected token <Token eof eof>")) ∧
    parseLoop rmEofNull 0 sampleNode (TokenStream.mkStream "") 1 =
      some (.ok (sampleNode, TokenStream.mkStream "")) := by
  have hnum : ∀ t led lbp rbp2,
      dictLookup t rmNumber.left = some (led, lbp, rbp2) →
      ∀ (ts : TokenStream) (r : Int) (n n2 : Node) (ts2 : TokenStream),
        led ts r n = .ok (n2, ts2) → ts2.size < ts.size := by
    intro t led lbp rbp2 h ts r n n2 ts2 hok
    have h2 : (if "number" = t then some (raise_left_error, (0 : Int), (0 : Int))
        else none) = some (led, lbp, rbp2) := h
    split_ifs at h2
    · obtain ⟨h3, -, -⟩ := Prod.mk.injEq .. ▸ Option.some.inj h2
      rw [← h3] at hok
      simp [raise_left_error] at hok
  have heof : ∀ t led lbp rbp2,
      dictLookup t rmEofNull.left = some (led, lbp, rbp2) →
      ∀ (ts : TokenStream) (r : Int) (n n2 : Node) (ts2 : TokenStream),
        led ts r n = .ok (n2, ts2) → ts2.size < ts.size := by
    intro t led lbp rbp2 h ts r n n2 ts2 hok
    have h2 : (if "eof" = t then some (raise_left_error, (0 : Int), (0 : Int))
        else none) = some (led, lbp, rbp2) := h
    split_ifs at h2
    · obtain ⟨h3, -, -⟩ := Prod.mk.injEq .. ▸ Option.some.inj h2
      rw [← h3] at hok
      simp [raise_left_error] at hok
  refine ⟨?_, ?_, ?_⟩
  · exact (parse_terminates rmNumber hnum).1 1 sampleNode
      (TokenStream.mkStream "") 0 (by decide)
  · exact (parse_terminates rmNumber hnum).2.1 0 sampleNode
      (TokenStream.mkStream "") 0 rfl rfl
  · exact (parse_terminates rmEofNull heof).2.2 sampleNode
      (TokenStream.mkStream "") 0 raise_left_error 0 rfl rfl

/-- Counterexample to C5 as stated: `$` matches no lexical class, yet
scanning does not stop at it — the tokenizer of `$1` still produces the
number token for the following `1`. -/
theorem tokenizer_skip_counterexample :
    (isSpaceC '$' = false ∧ isDigitC '$' = false ∧ isWordC '$' = false ∧
      isOpC '$' = false ∧ isBracketC '$' = false) ∧
    tokenize "$1" = [{ type := "number", val := .num 1, loc := some (0, 0) }] ∧
    tokenize "$1" ≠ [] := by
  exact ⟨by decide, by decide, by decide⟩

/-- Claim C5 amended: a character in no lexical class (and not whitespace)
produces no token and is skipped; scanning resumes at the next character,
so the remaining input still produces its tokens. -/
theorem tokenizer_skips_unmatched (c : Char) (cs : List Char)
    (hs : isSpaceC c = false) (hd : isDigitC c = false)
    (hw : isWordC c = false) (ho : isOpC c = false)
    (hb : isBracketC c = false) :
    tokList (c :: cs) = tokList cs :=
  tokList_skip c cs hs hd hw ho hb

/-- Witness for the amended C5: skipping `$` before `1`. -/
theorem tokenizer_skips_unmatched_witness :
    tokList ['$', '1'] = tokList ['1'] ∧
    tokList ['1'] = [{ type := "number", val := .num 1, loc := some (0, 0) }] := by
  refine ⟨tokenizer_skips_unmatched '$' ['1'] (by decide) (by decide) (by decide)
    (by decide) (by decide), by decide⟩

/-- Claim C6: after whitespace skipping the tokenizer emits, at each
position, one token by maximal munch — a maximal digit run as one number
token carrying its decimal value, a maximal operator-symbol run as one
token whose type and value are the matched text, and each bracket character
as its own single-character token never merged with neighbors; `munch` is
maximal (its first part satisfies the class, the next character does not),
and `**`, `+=`, `&&` are single tokens while `((` is two. -/
theorem tokenizer_lexical_grammar :
    (∀ (c : Char) (cs : List Char), isSpaceC c = true →
      tokList (c :: cs) = tokList cs) ∧
    (∀ (c : Char) (cs : List Char), isDigitC c = true →
      tokList (c :: cs) =
        { type := "number", val := .num (digitsVal (c :: (munch isDigitC cs).1)),
          loc := some (0, 0) } :: tokList (munch isDigitC cs).2) ∧
    (∀ (c : Char) (cs : List Char), isOpC c = true →
      tokList (c :: cs) =
        { type := String.mk (c :: (munch isOpC cs).1),
          val := .str (String.mk (c :: (munch isOpC cs).1)),
          loc := some (0, 0) } :: tokList (munch isOpC cs).2) ∧
    (∀ (c : Char) (cs : List Char), isBracketC c = true →
      tokList (c :: cs) =
        { type := String.mk [c], val := .str (String.mk [c]),
          loc := some (0, 0) } :: tokList cs) ∧
    (∀ (p : Char → Bool) (l : List Char),
      (munch p l).1 ++ (munch p l).2 = l ∧
      (∀ c ∈ (munch p l).1, p c = true) ∧
      (∀ c cs2, (munch p l).2 = c :: cs2 → p c = false)) ∧
    (tokenize "**" = [{ type := "**", val := .str "**", loc := some (0, 0) }] ∧
      tokenize "+=" = [{ type := "+=", val := .str "+=", loc := some (0, 0) }] ∧
      tokenize "&&" = [{ type := "&&", val := .str "&&", loc := some (0, 0) }] ∧
      tokenize "((" =
        [{ type := "(", val := .str "(", loc := some (0, 0) },
         { type := "(", val := .str "(", loc := some (0, 0) }]) := by
  refine ⟨tokList_space, tokList_digit, tokList_op, tokList_bracket, ?_, ?_⟩
  · intro p l
    exact ⟨munch_append p l, munch_all p l, munch_head p l⟩
  · exact ⟨by decide, by decide, by decide, by decide⟩

/-- Witness for C6: the digit rule on `12+` and the operator rule on `+=`. -/
theorem tokenizer_lexical_grammar_witness :
    isDigitC '1' = true ∧
    tokList ['1', '2', '+'] =
      { type := "number",
        val := .num (digitsVal ('1' :: (munch isDigitC ['2', '+']).1)),
        loc := some (0, 0) } :: tokList (munch isDigitC ['2', '+']).2 ∧
    isOpC '+' = true ∧
    tokList ['+', '='] =
      { type := String.mk ('+' :: (munch isOpC ['=']).1),
        val := .str (String.mk ('+' :: (munch isOpC ['=']).1)),
        loc := some (0, 0) } :: tokList (munch isOpC ['=']).2 := by
  exact ⟨by decide, tokenizer_lexical_grammar.2.1 '1' ['2', '+'] (by decide),
    by decide, tokenizer_lexical_grammar.2.2.1 '+' ['='] (by decide)⟩

/-- Counterexample to C7 as stated: the type `eof`, registered only via
`register_left`, does not produce the prefix-position message — at the eof
sentinel `parse` raises the end-of-input error first. -/
theorem left_only_eof_counterexample :
    dictLookup "eof" RuleMap.empty.null = none ∧
    (TokenStream.mkStream "").current.type = "eof" ∧
    parse rmEofLeft (TokenStream.mkStream "") 0 1 =
      some (.error (.parseError "Unexpected end of input")) ∧
    strContains "Unexpected end of input"
      "can\x27t be used in prefix position" = false := by
  exact ⟨rfl, rfl, rfl, by decide⟩

/-- Claim C7 amended: for a non-eof token type registered only via
`register_left`, `parse` at a stream whose current token has that type
raises the automatic null handler error, whose message contains the text
`can\x27t be used in prefix position`. -/
theorem left_only_types_raise_null_error (rm : RuleMap) (bp : Int)
    (token_types : List String) (is_left_right_assoc : Bool) (f : Led)
    (t : String) (hmem : t ∈ token_types)
    (hnone : dictLookup t rm.null = none) (hne : t ≠ "eof")
    (ts : TokenStream) (rbp : Int) (fuel : Nat)
    (hcur : ts.current.type = t) :
    parse (rm.register_left bp token_types is_left_right_assoc f) ts rbp fuel =
      some (.error (.parseError
        (ts.current.reprStr ++ " can\x27t be used in prefix position"))) ∧
    strContains (ts.current.reprStr ++ " can\x27t be used in prefix position")
      "can\x27t be used in prefix position" = true := by
  constructor
  · have hn : dictLookup ts.current.type
        (rm.register_left bp token_types is_left_right_assoc f).null =
        some (raise_null_error, 0) := by
      rw [hcur]
      exact regLeft_null_placeholder bp is_left_right_assoc f t token_types rm
        hmem hnone
    have hne2 : ¬ ts.current.type = "eof" := by
      rw [hcur]
      exact hne
    exact parse_nud_err _ ts rbp fuel raise_null_error 0 _ hne2 hn rfl
  · have he : ts.current.reprStr ++ " can\x27t be used in prefix position" =
        (ts.current.reprStr ++ " ") ++ "can\x27t be used in prefix position" := by
      rw [String.append_assoc]
      rfl
    rw [he]
    exact strContains_suffix (ts.current.reprStr ++ " ") _

/-- Witness for the amended C7: with `%` registered only as an infix
operator, parsing the input `%` fails with the prefix-position message. -/
theorem left_only_types_raise_null_error_witness :
    parse rmPercent (TokenStream.mkStream "%") 0 1 =
      some (.error (.parseError
        "<Token % %> can\x27t be used in prefix position")) ∧
    strContains "<Token % %> can\x27t be used in prefix position"
      "can\x27t be used in prefix position" = true := by
  have h := left_only_types_raise_null_error RuleMap.empty 25 ["*", "/", "%"]
    false ledWrap "%" (by decide) rfl (by decide) (TokenStream.mkStream "%") 0 1
    rfl
  exact ⟨h.1, h.2⟩

/-- Claim C8: for every source text with tokens `t1..tn`, the freshly built
stream has `current = t1` (the eof sentinel when `n = 0`); after `k`
advances the state holds the remaining tokens, and the next advance returns
`tk+1` while moving `current` onward (to the eof sentinel after the last
token); after all `n` advances `current` is the eof sentinel and stays so —
a further advance yields no state with a non-eof current. -/
theorem token_stream_cursor (s : String) :
    (tokenize s = [] → (TokenStream.mkStream s).current = EOF_TOKEN) ∧
    (∀ (t : Token) (rest : List Token), tokenize s = t :: rest →
      (TokenStream.mkStream s).current = t) ∧
    (∀ (k : Nat) (hk : k < (tokenize s).length),
      TokenStream.nextN (TokenStream.mkStream s) k =
        some (TokenStream.fromTokens ((tokenize s).drop k)) ∧
      (TokenStream.fromTokens ((tokenize s).drop k)).next =
        some ((tokenize s).get ⟨k, hk⟩,
          TokenStream.fromTokens ((tokenize s).drop (k + 1)))) ∧
    (TokenStream.nextN (TokenStream.mkStream s) (tokenize s).length =
      some (TokenStream.fromTokens []) ∧
     (TokenStream.fromTokens []).current = EOF_TOKEN ∧
     (TokenStream.fromTokens []).next = none) := by
  refine ⟨?_, ?_, ?_, ?_, rfl, rfl⟩
  · intro h
    show (TokenStream.fromTokens (tokenize s)).current = EOF_TOKEN
    rw [h]
    rfl
  · intro t rest h
    show (TokenStream.fromTokens (tokenize s)).current = t
    rw [h]
    rfl
  · intro k hk
    constructor
    · exact nextN_fromTokens k (tokenize s) (le_of_lt hk)
    · rw [List.drop_eq_getElem_cons hk, next_fromTokens]
      simp
  · rw [show TokenStream.mkStream s = TokenStream.fromTokens (tokenize s) from
      rfl, nextN_fromTokens (tokenize s).length (tokenize s) le_rfl,
      List.drop_length]

/-- Witness for C8 on the input `1+2`: the second advance returns the `+`
token, and the third advance leaves the exhausted eof state, after which no
advance succeeds. -/
theorem token_stream_cursor_witness :
    (TokenStream.fromTokens ((tokenize "1+2").drop 1)).next =
      some ({ type := "+", val := .str "+", loc := some (0, 0) },
        TokenStream.fromTokens ((tokenize "1+2").drop 2)) ∧
    TokenStream.nextN (TokenStream.mkStream "1+2") 3 =
      some (TokenStream.fromTokens []) ∧
    (TokenStream.fromTokens []).next = none := by
  refine ⟨?_, ?_, rfl⟩
  · have h := ((token_stream_cursor "1+2").2.2.1 1 (by decide)).2
    exact h
  · exact ((token_stream_cursor "1+2").2.2.2).1

/-- Claim C9: an entry equal to the failing left placeholder installed by
`register_null` has left binding power 0, so any loop pass with a
non-negative minimum binding power stops and returns the operand without
invoking the handler; the infix-position message is raised exactly when the
minimum binding power is negative; and `register_null` is what installs
that placeholder for types without a left entry. -/
theorem left_placeholder_never_invoked (rm : RuleMap) (rbp : Int)
    (node : Node) (ts : TokenStream) (fuel : Nat)
    (hl : dictLookup ts.current.type rm.left = some (raise_left_error, 0, 0)) :
    (0 ≤ rbp → parseLoop rm rbp node ts (fuel + 1) = some (.ok (node, ts))) ∧
    (rbp < 0 → parseLoop rm rbp node ts (fuel + 1) =
      some (.error (.parseError
        (ts.current.reprStr ++ " can\x27t be used in infix position")))) ∧
    (∀ (bp : Int) (token_types : List String) (f : Nud) (t : String),
      t ∈ token_types → dictLookup t rm.left = none →
      dictLookup t (rm.register_null bp token_types f).left =
        some (raise_left_error, 0, 0)) := by
  refine ⟨?_, ?_, ?_⟩
  · intro hc
    exact parseLoop_stop rm rbp node ts fuel raise_left_error 0 0 hl hc
  · intro hc
    exact parseLoop_go_err rm rbp node ts fuel raise_left_error 0 0 _ hl
      (by omega) rfl
  · intro bp token_types f t hm hv
    exact regNull_left_placeholder bp f t token_types rm hm hv

/-- Witness for C9 on `rmNumber` and the input `1`: at minimum binding
power 0 the loop returns the operand untouched, and at the unreachable
negative minimum binding power `-1` the infix-position message appears. -/
theorem left_placeholder_never_invoked_witness :
    parseLoop rmNumber 0 sampleNode (TokenStream.mkStream "1") 1 =
      some (.ok (sampleNode, TokenStream.mkStream "1")) ∧
    parseLoop rmNumber (-1) sampleNode (TokenStream.mkStream "1") 1 =
      some (.error (.parseError
        "<Token number 1> can\x27t be used in infix position")) := by
  refine ⟨?_, ?_⟩
  · exact (left_placeholder_never_invoked rmNumber 0 sampleNode
      (TokenStream.mkStream "1") 0 rfl).1 le_rfl
  · exact (left_placeholder_never_invoked rmNumber (-1) sampleNode
      (TokenStream.mkStream "1") 0 rfl).2.1 (by decide)

/-- Claim C10: on any stream state reachable from construction by advances,
a further advance raises `StopIteration` (modelled as `none`, a failure
distinct from every `ParseError`) exactly when `current` is already the eof
sentinel; since a raising advance produces no successor state, `current`
remains the eof sentinel afterwards. -/
theorem advance_after_eof (s : String) (k : Nat) (ts : TokenStream)
    (h : TokenStream.nextN (TokenStream.mkStream s) k = some ts) :
    ts.next = none ↔ ts.current = EOF_TOKEN :=
  good_next_none ts (good_nextN k (TokenStream.mkStream s) (good_mkStream s) ts h)

/-- Witness for C10: after one advance on the input `1` the stream is the
exhausted eof state and the equivalence holds there with both sides true;
before the advance both sides are false. -/
theorem advance_after_eof_witness :
    (TokenStream.next { current := EOF_TOKEN, rest := [], done := true } = none ↔
      ({ current := EOF_TOKEN, rest := [], done := true } :
        TokenStream).current = EOF_TOKEN) ∧
    TokenStream.next { current := EOF_TOKEN, rest := [], done := true } = none ∧
    ((TokenStream.mkStream "1").next = none ↔
      (TokenStream.mkStream "1").current = EOF_TOKEN) ∧
    ¬ (TokenStream.mkStream "1").next = none := by
  refine ⟨advance_after_eof "1" 1 _ rfl, rfl, advance_after_eof "1" 0 _ rfl, ?_⟩
  intro h
  rw [show (TokenStream.mkStream "1").next =
    some ({ type := "number", val := .num 1, loc := some (0, 0) },
      { current := EOF_TOKEN, rest := [], done := true }) from rfl] at h
  cases h
